import Mathlib

/-!
# Verification of the Lookout UI job-preemption batching and mutation

This file gives a shallow embedding, in Lean 4, of the logic of
`internal/lookoutui/src/services/lookout/usePreemptJobs.ts`:

* `createJobBatches` groups a flat job list into nested per-queue,
  per-job-set fixed-size batches, with JavaScript `Map` insertion order
  modelled by association lists whose missing keys are appended at the end;
* `runMutation` models the body of the `useMutation` mutation function:
  the fake-data branch, the construction of one API call per batch, the
  sequential await/aggregate loop with per-batch error handling, and the
  top-level catch that re-throws a stringified error.

Effects are made explicit: the per-request network outcome is an oracle
`outcome : Nat → Option ε` (indexed by the position of the request in the
issue order, `none` = the promise resolved, `some e` = it rejected with
error `e`), an escaping top-level error is an injected `Option ε`, and the
external `getErrorMessage` helper (whose source lies outside the verified
tree) is an abstract function `ε → String`.
-/

namespace ArmadaPreempt

/-- Job identifiers are strings (`JobId` in `models/lookoutModels`). -/
abbrev JobId := String

/-- The fields of the Lookout `Job` model that `usePreemptJobs.ts` reads:
its queue, its job set and its job ID. The real model carries further
fields (state, timestamps, ...) that the code under verification never
touches. -/
structure Job where
  queue : String
  jobSet : String
  jobId : String
deriving DecidableEq, Repr

/-- One entry of the `failedJobIds` list of an `UpdateJobsResponse`:
a job ID paired with the error reason attached to it. -/
structure FailedJob where
  jobId : JobId
  errorReason : String
deriving DecidableEq, Repr

/-- The aggregated response type `UpdateJobsResponse` of the mutation. -/
structure UpdateJobsResponse where
  successfulJobIds : List JobId
  failedJobIds : List FailedJob
deriving DecidableEq, Repr

/-- Association-list update modelling `Map.set` combined with the
has/set-default pattern of the source: apply `f` to the value stored at
`k`, or to the default `d` when `k` is absent, in which case the new
entry is appended at the end — JavaScript `Map` iteration order is
insertion order. -/
def updateAssoc {α : Type} (k : String) (f : α → α) (d : α) :
    List (String × α) → List (String × α)
  | [] => [(k, f d)]
  | (k', v) :: rest =>
    if k' = k then (k', f v) :: rest else (k', v) :: updateAssoc k f d rest

/-- Association-list lookup modelling `Map.get`. -/
def lookupAssoc {α : Type} (k : String) : List (String × α) → Option α
  | [] => none
  | (k', v) :: rest => if k' = k then some v else lookupAssoc k rest

/-- The per-(queue, job-set) batch update of `createJobBatches`
(lines 32–39 of the source): if there is no batch yet or the last batch
already holds `batchSize` IDs, start a new batch `[id]`; otherwise append
`id` to the last batch. Written by structural recursion to the last
element of the batch list. -/
def addToBatches (batchSize : Nat) (id : JobId) :
    List (List JobId) → List (List JobId)
  | [] => [[id]]
  | [b] => if b.length = batchSize then [b, [id]] else [b ++ [id]]
  | b :: b' :: rest => b :: addToBatches batchSize id (b' :: rest)

/-- The nested grouping structure `Map<string, Map<string, JobId[][]>>`:
queues, then job sets, then the list of batches, all in insertion order. -/
abbrev QueueMap := List (String × List (String × List (List JobId)))

/-- Processing of a single job by the loop body of `createJobBatches`:
ensure the queue and job-set entries exist, then push the job ID into the
batches stored under `(job.queue, job.jobSet)`. -/
def insertJob (batchSize : Nat) (m : QueueMap) (job : Job) : QueueMap :=
  updateAssoc job.queue
    (fun sm => updateAssoc job.jobSet (addToBatches batchSize job.jobId) [] sm)
    [] m

/-- `createJobBatches(jobs, batchSize)` (lines 22–42 of the source):
fold the per-job update over the input list, starting from the empty
map. -/
def createJobBatches (jobs : List Job) (batchSize : Nat) : QueueMap :=
  jobs.foldl (insertJob batchSize) []

/-- The batch list stored under queue `q` and job set `s`
(empty when either key is absent). -/
def getBatches (m : QueueMap) (q s : String) : List (List JobId) :=
  (lookupAssoc s ((lookupAssoc q m).getD [])).getD []

/-- Every batch occurring anywhere in the nested structure, in iteration
order. -/
def allBatches (m : QueueMap) : List (List JobId) :=
  m.flatMap fun p => p.2.flatMap fun q => q.2

/-- All job IDs occurring anywhere in the nested structure, in iteration
order. -/
def flattenIds (m : QueueMap) : List JobId :=
  m.flatMap fun p => p.2.flatMap fun q => q.2.flatten

/-- One step of first-encounter deduplication: keep the accumulator if the
key was already seen, otherwise append it. This is exactly how a
JavaScript `Map` grows its key set. -/
def eoStep (acc : List String) (x : String) : List String :=
  if x ∈ acc then acc else acc ++ [x]

/-- First-encounter deduplication: the order in which the distinct values
of a list first appear, which is the insertion order of the JavaScript
`Map` keys built from that list. -/
def encounterOrder (xs : List String) : List String :=
  xs.foldl eoStep []

/-- The job-set keys stored under queue `q`, in insertion order. -/
def jsKeys (m : QueueMap) (q : String) : List String :=
  ((lookupAssoc q m).getD []).map Prod.fst

/-- The request body of `submitApi.preemptJobs` (lines 70–75 of the
source): the batch's job IDs, the queue, the job set and the shared
reason. -/
structure PreemptRequestBody where
  jobIds : List JobId
  queue : String
  jobSetId : String
  reason : String
deriving DecidableEq, Repr

/-- One element of `apiResponsePromises` (lines 68–78 of the source): the
request body handed to the API together with the `jobIds` field the
aggregation loop later reads back. -/
structure ApiCall where
  body : PreemptRequestBody
  jobIds : List JobId
deriving DecidableEq, Repr

/-- The triple-nested loop of lines 65–81 of the source, which turns the
nested batch structure into the flat list `apiResponsePromises` of
pending API calls, in iteration order. -/
def callsOfMap (m : QueueMap) (reason : String) : List ApiCall :=
  m.flatMap fun p =>
    p.2.flatMap fun q =>
      q.2.map fun batch =>
        { body := { jobIds := batch, queue := p.1, jobSetId := q.1, reason := reason }
          jobIds := batch }

/-- The configured maximum batch size (line 61 of the source). -/
def maxJobsPerRequest : Nat := 10000

/-- The API calls issued by the mutation for a given job list and reason:
batch with the configured maximum size, then flatten into the list of
requests. -/
def buildApiCalls (jobs : List Job) (reason : String) : List ApiCall :=
  callsOfMap (createJobBatches jobs maxJobsPerRequest) reason

/-- The sequential aggregation loop of lines 83–96 of the source: await
each call in issue order; on success push all of the batch's job IDs onto
`successfulJobIds`, on rejection push every job ID of the batch onto
`failedJobIds`, each paired with the stringified error of that batch.
`outcome i` is the result of the `i`-th call of the list. -/
def processCalls {ε : Type} (getErrorMessage : ε → String) :
    List ApiCall → (Nat → Option ε) → UpdateJobsResponse
  | [], _ => { successfulJobIds := [], failedJobIds := [] }
  | call :: rest, outcome =>
    let tail := processCalls getErrorMessage rest fun i => outcome (i + 1)
    match outcome 0 with
    | none =>
      { successfulJobIds := call.jobIds ++ tail.successfulJobIds
        failedJobIds := tail.failedJobIds }
    | some e =>
      { successfulJobIds := tail.successfulJobIds
        failedJobIds :=
          (call.jobIds.map fun id => { jobId := id, errorReason := getErrorMessage e })
            ++ tail.failedJobIds }

/-- The mutation function of `usePreemptJobs` (lines 49–102 of the
source). `fakeDataEnabled` is the configuration flag; in fake-data mode
the mutation resolves immediately with every input job ID marked
successful. Otherwise the batches are built and processed; `topError`
injects an error escaping the per-batch handling (lines 99–101): when it
is present the mutation throws the stringified message instead of
returning an aggregated response. -/
def runMutation {ε : Type} (fakeDataEnabled : Bool) (jobs : List Job)
    (reason : String) (outcome : Nat → Option ε) (topError : Option ε)
    (getErrorMessage : ε → String) : Except String UpdateJobsResponse :=
  if fakeDataEnabled then
    Except.ok { successfulJobIds := jobs.map Job.jobId, failedJobIds := [] }
  else
    match topError with
    | some e => Except.error (getErrorMessage e)
    | none =>
      Except.ok (processCalls getErrorMessage (buildApiCalls jobs reason) outcome)

/-!
## Association-list and batch-update lemmas
-/

theorem lookupAssoc_updateAssoc_self {α : Type} (k : String) (f : α → α) (d : α)
    (m : List (String × α)) :
    lookupAssoc k (updateAssoc k f d m) = some (f ((lookupAssoc k m).getD d)) := by
  induction m with
  | nil => simp [updateAssoc, lookupAssoc]
  | cons p rest ih =>
    obtain ⟨k', v⟩ := p
    by_cases h : k' = k <;> simp [updateAssoc, lookupAssoc, h, ih]

theorem lookupAssoc_updateAssoc_ne {α : Type} {k' k : String} (f : α → α) (d : α)
    (m : List (String × α)) (h : k' ≠ k) :
    lookupAssoc k' (updateAssoc k f d m) = lookupAssoc k' m := by
  induction m with
  | nil => simp [updateAssoc, lookupAssoc, Ne.symm h]
  | cons p rest ih =>
    obtain ⟨k₀, v⟩ := p
    by_cases h0 : k₀ = k
    · subst h0
      simp [updateAssoc, lookupAssoc, Ne.symm h]
    · simp only [updateAssoc, if_neg h0]
      by_cases h1 : k₀ = k'
      · simp [lookupAssoc, h1]
      · simp [lookupAssoc, h1, ih]

theorem map_fst_updateAssoc {α : Type} (k : String) (f : α → α) (d : α)
    (m : List (String × α)) :
    (updateAssoc k f d m).map Prod.fst =
      if k ∈ m.map Prod.fst then m.map Prod.fst else m.map Prod.fst ++ [k] := by
  induction m with
  | nil => simp [updateAssoc]
  | cons p rest ih =>
    obtain ⟨k', v⟩ := p
    by_cases h : k' = k
    · subst h
      simp [updateAssoc]
    · by_cases h2 : k ∈ rest.map Prod.fst <;>
        simp [updateAssoc, h, Ne.symm h, h2, ih]

theorem addToBatches_flatten (batchSize : Nat) (id : JobId) (l : List (List JobId)) :
    (addToBatches batchSize id l).flatten = l.flatten ++ [id] := by
  induction l with
  | nil => simp [addToBatches]
  | cons b tl ih =>
    cases tl with
    | nil =>
      by_cases h : b.length = batchSize <;> simp [addToBatches, h]
    | cons b' rest =>
      simp only [addToBatches, List.flatten_cons, List.append_assoc, ih]

theorem addToBatches_length {batchSize : Nat} (id : JobId) {l : List (List JobId)}
    (hbs : 1 ≤ batchSize) (hl : ∀ b ∈ l, b.length ≤ batchSize) :
    ∀ b ∈ addToBatches batchSize id l, b.length ≤ batchSize := by
  induction l with
  | nil =>
    intro b hb
    simp [addToBatches] at hb
    simpa [hb] using hbs
  | cons b0 tl ih =>
    cases tl with
    | nil =>
      intro b hb
      by_cases h : b0.length = batchSize
      · simp [addToBatches, h] at hb
        rcases hb with hb | hb
        · exact hb ▸ hl b0 (by simp)
        · simpa [hb] using hbs
      · simp [addToBatches, h] at hb
        have h0 : b0.length ≤ batchSize := hl b0 (by simp)
        have h0' : b0.length < batchSize := lt_of_le_of_ne h0 h
        subst hb
        simpa using h0'
    | cons b' rest =>
      intro b hb
      simp only [addToBatches, List.mem_cons] at hb
      rcases hb with hb | hb
      · exact hb ▸ hl b0 (by simp)
      · exact ih (fun x hx => hl x (List.mem_cons_of_mem _ hx)) b hb

theorem flatMap_updateAssoc_perm {α β : Type} (g : α → List β) (k : String)
    (f : α → α) (d : α) (x : β) (hf : ∀ v, (g (f v)).Perm (g v ++ [x]))
    (hd : g d = []) (m : List (String × α)) :
    ((updateAssoc k f d m).flatMap fun p => g p.2).Perm
      ((m.flatMap fun p => g p.2) ++ [x]) := by
  induction m with
  | nil => simpa [updateAssoc, hd] using hf d
  | cons p rest ih =>
    obtain ⟨k', v⟩ := p
    by_cases h : k' = k
    · subst h
      simp only [updateAssoc, if_pos rfl, List.flatMap_cons]
      have h2 : ((g v ++ [x]) ++ (rest.flatMap fun p => g p.2)).Perm
          (g v ++ ((rest.flatMap fun p => g p.2) ++ [x])) := by
        rw [List.append_assoc]
        exact List.Perm.append_left _ List.perm_append_comm
      refine (((hf v).append (List.Perm.refl _)).trans h2).trans ?_
      rw [List.append_assoc]
    · simp only [updateAssoc, if_neg h, List.flatMap_cons]
      refine (List.Perm.append_left (g v) ih).trans ?_
      rw [List.append_assoc]

theorem updateAssoc_forall {α : Type} {P : α → Prop} {k : String} {f : α → α}
    {d : α} (hf : ∀ v, P v → P (f v)) (hd : P d) (m : List (String × α))
    (hm : ∀ p ∈ m, P p.2) : ∀ p ∈ updateAssoc k f d m, P p.2 := by
  induction m with
  | nil =>
    intro p hp
    simp [updateAssoc] at hp
    simpa [hp] using hf d hd
  | cons q rest ih =>
    obtain ⟨k', v⟩ := q
    by_cases h : k' = k
    · intro p hp
      simp [updateAssoc, h] at hp
      rcases hp with hp | hp
      · simpa [hp] using hf v (hm ⟨k', v⟩ (by simp))
      · exact hm p (List.mem_cons_of_mem _ hp)
    · intro p hp
      simp only [updateAssoc, if_neg h, List.mem_cons] at hp
      rcases hp with hp | hp
      · simpa [hp] using hm ⟨k', v⟩ (by simp)
      · exact ih (fun x hx => hm x (List.mem_cons_of_mem _ hx)) p hp

theorem lookupAssoc_eq_some_of_mem {α : Type} {k : String} {v : α}
    {m : List (String × α)} (hnd : (m.map Prod.fst).Nodup) (hm : (k, v) ∈ m) :
    lookupAssoc k m = some v := by
  induction m with
  | nil => simp at hm
  | cons p rest ih =>
    obtain ⟨k', v'⟩ := p
    simp only [List.map_cons, List.nodup_cons] at hnd
    rcases List.mem_cons.mp hm with hp | hp
    · injection hp with h1 h2
      simp [lookupAssoc, h1, h2]
    · have hk : k' ≠ k := by
        rintro rfl
        exact hnd.1 (List.mem_map.mpr ⟨_, hp, rfl⟩)
      simp [lookupAssoc, hk, ih hnd.2 hp]

/-!
## Step lemmas: the effect of processing one job
-/

theorem getBatches_insertJob (batchSize : Nat) (m : QueueMap) (j : Job)
    (q s : String) :
    getBatches (insertJob batchSize m j) q s =
      if j.queue = q ∧ j.jobSet = s then
        addToBatches batchSize j.jobId (getBatches m q s)
      else getBatches m q s := by
  unfold getBatches insertJob
  by_cases hq : j.queue = q
  · subst hq
    rw [lookupAssoc_updateAssoc_self]
    by_cases hs : j.jobSet = s
    · subst hs
      simp [lookupAssoc_updateAssoc_self]
    · simp [lookupAssoc_updateAssoc_ne _ _ _ (fun h => hs h.symm), hs]
  · simp [lookupAssoc_updateAssoc_ne _ _ _ (fun h => hq h.symm), hq]

theorem map_fst_insertJob (batchSize : Nat) (m : QueueMap) (j : Job) :
    (insertJob batchSize m j).map Prod.fst = eoStep (m.map Prod.fst) j.queue := by
  unfold insertJob eoStep
  exact map_fst_updateAssoc _ _ _ _

theorem jsKeys_insertJob (batchSize : Nat) (m : QueueMap) (j : Job)
    (q : String) :
    jsKeys (insertJob batchSize m j) q =
      if j.queue = q then eoStep (jsKeys m q) j.jobSet else jsKeys m q := by
  unfold jsKeys insertJob eoStep
  by_cases hq : j.queue = q
  · subst hq
    rw [lookupAssoc_updateAssoc_self]
    simp [map_fst_updateAssoc]
  · simp [lookupAssoc_updateAssoc_ne _ _ _ (fun h => hq h.symm), hq]

theorem insertJob_length_bound {batchSize : Nat} (hbs : 1 ≤ batchSize)
    (m : QueueMap) (j : Job)
    (hm : ∀ p ∈ m, ∀ qe ∈ p.2, ∀ b ∈ qe.2, b.length ≤ batchSize) :
    ∀ p ∈ insertJob batchSize m j, ∀ qe ∈ p.2, ∀ b ∈ qe.2,
      b.length ≤ batchSize := by
  unfold insertJob
  refine updateAssoc_forall
    (P := fun sm => ∀ qe ∈ sm, ∀ b ∈ qe.2, b.length ≤ batchSize) ?_ ?_ m hm
  · intro sm hsm
    refine updateAssoc_forall
      (P := fun bl => ∀ b ∈ bl, b.length ≤ batchSize) ?_ ?_ sm hsm
    · intro bl hbl
      exact addToBatches_length j.jobId hbs hbl
    · intro b hb
      simp at hb
  · intro p hp
    simp at hp

theorem flattenIds_insertJob (batchSize : Nat) (m : QueueMap) (j : Job) :
    (flattenIds (insertJob batchSize m j)).Perm (flattenIds m ++ [j.jobId]) := by
  have inner : ∀ v : List (String × List (List JobId)),
      ((updateAssoc j.jobSet (addToBatches batchSize j.jobId) [] v).flatMap
          fun p => p.2.flatten).Perm
        ((v.flatMap fun p => p.2.flatten) ++ [j.jobId]) := by
    intro v
    refine flatMap_updateAssoc_perm (fun bl => bl.flatten) j.jobSet
      (addToBatches batchSize j.jobId) [] j.jobId ?_ rfl v
    intro bl
    simp only []
    rw [addToBatches_flatten]
  have outer := flatMap_updateAssoc_perm
    (fun sm => sm.flatMap fun p => p.2.flatten) j.queue
    (fun sm => updateAssoc j.jobSet (addToBatches batchSize j.jobId) [] sm) []
    j.jobId inner rfl m
  simpa [flattenIds, insertJob] using outer

/-!
## Fold lemmas: the whole of createJobBatches
-/

theorem foldl_insertJob_getBatches (batchSize : Nat) (q s : String) :
    ∀ (jobs : List Job) (m : QueueMap),
      (getBatches (jobs.foldl (insertJob batchSize) m) q s).flatten =
        (getBatches m q s).flatten ++
          ((jobs.filter fun j => j.queue = q ∧ j.jobSet = s).map Job.jobId) := by
  intro jobs
  induction jobs with
  | nil => intro m; simp
  | cons j rest ih =>
    intro m
    simp only [List.foldl_cons]
    rw [ih (insertJob batchSize m j), getBatches_insertJob]
    by_cases hc : j.queue = q ∧ j.jobSet = s
    · simp [hc, addToBatches_flatten, List.filter_cons, List.append_assoc]
    · simp [hc, List.filter_cons]

theorem foldl_insertJob_map_fst (batchSize : Nat) :
    ∀ (jobs : List Job) (m : QueueMap),
      (jobs.foldl (insertJob batchSize) m).map Prod.fst =
        (jobs.map Job.queue).foldl eoStep (m.map Prod.fst) := by
  intro jobs
  induction jobs with
  | nil => intro m; rfl
  | cons j rest ih =>
    intro m
    simp only [List.foldl_cons, List.map_cons]
    rw [ih, map_fst_insertJob]

theorem foldl_insertJob_jsKeys (batchSize : Nat) (q : String) :
    ∀ (jobs : List Job) (m : QueueMap),
      jsKeys (jobs.foldl (insertJob batchSize) m) q =
        ((jobs.filter fun j => j.queue = q).map Job.jobSet).foldl eoStep
          (jsKeys m q) := by
  intro jobs
  induction jobs with
  | nil => intro m; rfl
  | cons j rest ih =>
    intro m
    simp only [List.foldl_cons]
    rw [ih, jsKeys_insertJob]
    by_cases hq : j.queue = q
    · simp [hq, List.filter_cons]
    · simp [hq, List.filter_cons]

theorem foldl_insertJob_flattenIds (batchSize : Nat) :
    ∀ (jobs : List Job) (m : QueueMap),
      (flattenIds (jobs.foldl (insertJob batchSize) m)).Perm
        (flattenIds m ++ jobs.map Job.jobId) := by
  intro jobs
  induction jobs with
  | nil => intro m; simp
  | cons j rest ih =>
    intro m
    simp only [List.foldl_cons, List.map_cons]
    refine (ih (insertJob batchSize m j)).trans ?_
    refine ((flattenIds_insertJob batchSize m j).append
      (List.Perm.refl (rest.map Job.jobId))).trans ?_
    rw [List.append_assoc, List.singleton_append]

theorem foldl_insertJob_length_bound {batchSize : Nat} (hbs : 1 ≤ batchSize) :
    ∀ (jobs : List Job) (m : QueueMap),
      (∀ p ∈ m, ∀ qe ∈ p.2, ∀ b ∈ qe.2, b.length ≤ batchSize) →
      ∀ p ∈ jobs.foldl (insertJob batchSize) m, ∀ qe ∈ p.2, ∀ b ∈ qe.2,
        b.length ≤ batchSize := by
  intro jobs
  induction jobs with
  | nil => intro m hm; exact hm
  | cons j rest ih =>
    intro m hm
    exact ih (insertJob batchSize m j) (insertJob_length_bound hbs m j hm)

/-!
## Lemmas about first-encounter order
-/

theorem mem_foldl_eoStep :
    ∀ (xs acc : List String) (y : String),
      y ∈ xs.foldl eoStep acc ↔ y ∈ acc ∨ y ∈ xs := by
  intro xs
  induction xs with
  | nil => simp
  | cons x rest ih =>
    intro acc y
    simp only [List.foldl_cons, ih, List.mem_cons]
    by_cases h : x ∈ acc
    · simp only [eoStep, if_pos h]
      constructor
      · rintro (hy | hy)
        · exact Or.inl hy
        · exact Or.inr (Or.inr hy)
      · rintro (hy | hy | hy)
        · exact Or.inl hy
        · exact Or.inl (hy ▸ h)
        · exact Or.inr hy
    · simp only [eoStep, if_neg h, List.mem_append, List.mem_singleton]
      tauto

theorem nodup_foldl_eoStep :
    ∀ (xs acc : List String), acc.Nodup → (xs.foldl eoStep acc).Nodup := by
  intro xs
  induction xs with
  | nil => intro acc h; exact h
  | cons x rest ih =>
    intro acc h
    refine ih _ ?_
    unfold eoStep
    by_cases hx : x ∈ acc
    · simpa [hx] using h
    · simp [hx, List.nodup_append, h]

theorem mem_encounterOrder (xs : List String) (y : String) :
    y ∈ encounterOrder xs ↔ y ∈ xs := by
  simpa [encounterOrder] using mem_foldl_eoStep xs [] y

theorem nodup_encounterOrder (xs : List String) :
    (encounterOrder xs).Nodup :=
  nodup_foldl_eoStep xs [] (by simp)

/-!
## createJobBatches: top-level properties
-/

theorem createJobBatches_getBatches (jobs : List Job) (batchSize : Nat)
    (q s : String) :
    (getBatches (createJobBatches jobs batchSize) q s).flatten =
      (jobs.filter fun j => j.queue = q ∧ j.jobSet = s).map Job.jobId := by
  simpa [createJobBatches, getBatches, lookupAssoc] using
    foldl_insertJob_getBatches batchSize q s jobs []

theorem createJobBatches_map_fst (jobs : List Job) (batchSize : Nat) :
    (createJobBatches jobs batchSize).map Prod.fst =
      encounterOrder (jobs.map Job.queue) := by
  simpa [createJobBatches, encounterOrder] using
    foldl_insertJob_map_fst batchSize jobs []

theorem createJobBatches_jsKeys (jobs : List Job) (batchSize : Nat)
    (q : String) :
    jsKeys (createJobBatches jobs batchSize) q =
      encounterOrder ((jobs.filter fun j => j.queue = q).map Job.jobSet) := by
  simpa [createJobBatches, encounterOrder, jsKeys, lookupAssoc] using
    foldl_insertJob_jsKeys batchSize q jobs []

theorem createJobBatches_flattenIds_perm (jobs : List Job) (batchSize : Nat) :
    (flattenIds (createJobBatches jobs batchSize)).Perm (jobs.map Job.jobId) := by
  simpa [createJobBatches, flattenIds] using
    foldl_insertJob_flattenIds batchSize jobs []

theorem createJobBatches_length_bound {batchSize : Nat} (hbs : 1 ≤ batchSize)
    (jobs : List Job) :
    ∀ p ∈ createJobBatches jobs batchSize, ∀ qe ∈ p.2, ∀ b ∈ qe.2,
      b.length ≤ batchSize :=
  foldl_insertJob_length_bound hbs jobs [] (by simp)

theorem callsOfMap_flatMap_jobIds (m : QueueMap) (reason : String) :
    ((callsOfMap m reason).flatMap fun c => c.jobIds) = flattenIds m := by
  unfold callsOfMap flattenIds
  induction m with
  | nil => rfl
  | cons p rest ih =>
    simp only [List.flatMap_cons, List.flatMap_append, ih]
    congr 1
    induction p.2 with
    | nil => rfl
    | cons qe tl ih2 =>
      simp only [List.flatMap_cons, List.flatMap_append, ih2]
      congr 1
      simp [List.flatMap_map]
      induction qe.2 with
      | nil => rfl
      | cons b bs ih3 => simp [ih3]
/-!
## The aggregation loop
-/

theorem processCalls_perm {ε : Type} (getErrorMessage : ε → String) :
    ∀ (calls : List ApiCall) (outcome : Nat → Option ε),
      ((processCalls getErrorMessage calls outcome).successfulJobIds ++
        (processCalls getErrorMessage calls outcome).failedJobIds.map
          FailedJob.jobId).Perm
      (calls.flatMap fun c => c.jobIds) := by
  intro calls
  induction calls with
  | nil => intro outcome; simp [processCalls]
  | cons c rest ih =>
    intro outcome
    cases h : outcome 0 with
    | none =>
      simp only [processCalls, h, List.flatMap_cons]
      rw [List.append_assoc]
      exact List.Perm.append_left _ (ih _)
    | some e =>
      simp only [processCalls, h, List.flatMap_cons, List.map_append,
        List.map_map]
      have hmap :
          (c.jobIds.map ((fun p => p.jobId) ∘ fun id =>
            ({ jobId := id, errorReason := getErrorMessage e } : FailedJob)))
            = c.jobIds := by
        induction c.jobIds with
        | nil => rfl
        | cons a tl ih2 => simpa using ih2
      rw [hmap, ← List.append_assoc]
      refine (List.Perm.append (List.perm_append_comm) (List.Perm.refl _)).trans ?_
      rw [List.append_assoc]
      exact List.Perm.append_left _ (ih _)

theorem processCalls_all_none {ε : Type} (getErrorMessage : ε → String) :
    ∀ calls : List ApiCall,
      processCalls getErrorMessage calls (fun _ => none) =
        { successfulJobIds := calls.flatMap fun c => c.jobIds
          failedJobIds := [] } := by
  intro calls
  induction calls with
  | nil => rfl
  | cons c rest ih => simp [processCalls, ih]

theorem processCalls_failed_mem {ε : Type} (getErrorMessage : ε → String) :
    ∀ (calls : List ApiCall) (outcome : Nat → Option ε) (i : Nat)
      (c : ApiCall) (e : ε), calls[i]? = some c → outcome i = some e →
      ∀ id ∈ c.jobIds,
        ({ jobId := id, errorReason := getErrorMessage e } : FailedJob) ∈
          (processCalls getErrorMessage calls outcome).failedJobIds := by
  intro calls
  induction calls with
  | nil => intro outcome i c e hc; simp at hc
  | cons c0 rest ih =>
    intro outcome i c e hc ho id hid
    cases i with
    | zero =>
      have hc0 : c0 = c := by simpa using hc
      subst hc0
      simp only [processCalls, ho, List.mem_append]
      exact Or.inl (List.mem_map.mpr ⟨id, hid, rfl⟩)
    | succ n =>
      have hc' : rest[n]? = some c := by simpa using hc
      have ho' : (fun k => outcome (k + 1)) n = some e := by simpa using ho
      have htail := ih (fun k => outcome (k + 1)) n c e hc' ho' id hid
      cases h0 : outcome 0 with
      | none => simpa [processCalls, h0] using htail
      | some e0 =>
        simp only [processCalls, h0, List.mem_append]
        exact Or.inr htail

theorem processCalls_failed_src {ε : Type} (getErrorMessage : ε → String) :
    ∀ (calls : List ApiCall) (outcome : Nat → Option ε),
      ∀ p ∈ (processCalls getErrorMessage calls outcome).failedJobIds,
        ∃ i c e, calls[i]? = some c ∧ outcome i = some e ∧
          p.jobId ∈ c.jobIds ∧ p.errorReason = getErrorMessage e := by
  intro calls
  induction calls with
  | nil => intro outcome p hp; simp [processCalls] at hp
  | cons c0 rest ih =>
    intro outcome p hp
    cases h0 : outcome 0 with
    | none =>
      simp only [processCalls, h0] at hp
      obtain ⟨i, c, e, hc, ho, hmem, hmsg⟩ := ih (fun k => outcome (k + 1)) p hp
      exact ⟨i + 1, c, e, by simpa using hc, by simpa using ho, hmem, hmsg⟩
    | some e0 =>
      simp only [processCalls, h0, List.mem_append] at hp
      rcases hp with hp | hp
      · obtain ⟨id, hid, hpe⟩ := List.mem_map.mp hp
        refine ⟨0, c0, e0, by simp, h0, ?_, ?_⟩
        · rw [← hpe]; exact hid
        · rw [← hpe]
      · obtain ⟨i, c, e, hc, ho, hmem, hmsg⟩ := ih (fun k => outcome (k + 1)) p hp
        exact ⟨i + 1, c, e, by simpa using hc, by simpa using ho, hmem, hmsg⟩

theorem processCalls_success_mem {ε : Type} (getErrorMessage : ε → String) :
    ∀ (calls : List ApiCall) (outcome : Nat → Option ε) (i : Nat)
      (c : ApiCall), calls[i]? = some c → outcome i = none →
      ∀ id ∈ c.jobIds,
        id ∈ (processCalls getErrorMessage calls outcome).successfulJobIds := by
  intro calls
  induction calls with
  | nil => intro outcome i c hc; simp at hc
  | cons c0 rest ih =>
    intro outcome i c hc ho id hid
    cases i with
    | zero =>
      have hc0 : c0 = c := by simpa using hc
      subst hc0
      simp only [processCalls, ho, List.mem_append]
      exact Or.inl hid
    | succ n =>
      have hc' : rest[n]? = some c := by simpa using hc
      have ho' : (fun k => outcome (k + 1)) n = none := by simpa using ho
      have htail := ih (fun k => outcome (k + 1)) n c hc' ho' id hid
      cases h0 : outcome 0 with
      | none =>
        simp only [processCalls, h0, List.mem_append]
        exact Or.inr htail
      | some e0 => simpa [processCalls, h0] using htail
/-!
## Helper definitions for the claim statements
-/

/-- The aggregated response the mutation returns in the normal path
(fake data disabled, no escaping error). -/
def mutationResponse {ε : Type} (jobs : List Job) (reason : String)
    (outcome : Nat → Option ε) (getErrorMessage : ε → String) :
    UpdateJobsResponse :=
  processCalls getErrorMessage (buildApiCalls jobs reason) outcome

theorem mem_allBatches {m : QueueMap} {b : List JobId} :
    b ∈ allBatches m ↔ ∃ p ∈ m, ∃ qe ∈ p.2, b ∈ qe.2 := by
  simp [allBatches]

/-- Sample jobs used by the witnesses. -/
def jA : Job := { queue := "queueA", jobSet := "setA", jobId := "a" }

/-- Sample job in the same queue and job set as `jA`. -/
def jB : Job := { queue := "queueA", jobSet := "setA", jobId := "b" }

/-- Sample job in a different queue. -/
def jC : Job := { queue := "queueB", jobSet := "setB", jobId := "c" }
/-!
## Claims
-/

/-- C2: for every list of jobs and every batch size, the multiset of job
IDs across all batches produced by createJobBatches (over all queues,
job sets and batches) is a permutation of the multiset of job IDs of the
input list: batching loses no job ID and duplicates none. -/
theorem claim_batching_partitions_input (jobs : List Job) (batchSize : Nat) :
    (flattenIds (createJobBatches jobs batchSize)).Perm (jobs.map Job.jobId) :=
  createJobBatches_flattenIds_perm jobs batchSize

/-- C3 counterexample: with batch size 0, createJobBatches produces a
batch whose length exceeds the batch size, so the claim does not hold for
every batch size. -/
theorem claim_batch_size_zero_counterexample :
    ¬ ∀ b ∈ allBatches
        (createJobBatches [{ queue := "q", jobSet := "s", jobId := "j1" }] 0),
      b.length ≤ 0 := by
  decide

/-- C3 (amended): for every positive batch size, every batch produced by
createJobBatches has length at most the batch size; in particular this
holds for the configured maximum maxJobsPerRequest = 10000. -/
theorem claim_batch_size_bound (jobs : List Job) {batchSize : Nat}
    (hbs : 1 ≤ batchSize) :
    (∀ b ∈ allBatches (createJobBatches jobs batchSize),
      b.length ≤ batchSize) ∧
    ∀ b ∈ allBatches (createJobBatches jobs maxJobsPerRequest),
      b.length ≤ maxJobsPerRequest := by
  constructor
  · intro b hb
    obtain ⟨p, hp, qe, hqe, hbq⟩ := mem_allBatches.mp hb
    exact createJobBatches_length_bound hbs jobs p hp qe hqe b hbq
  · intro b hb
    obtain ⟨p, hp, qe, hqe, hbq⟩ := mem_allBatches.mp hb
    exact createJobBatches_length_bound (by norm_num [maxJobsPerRequest])
      jobs p hp qe hqe b hbq

/-- C3 witness: the amended bound applied at batch size 2 to a concrete
three-job list, which really produces two batches. -/
theorem claim_batch_size_bound_witness :
    1 ≤ 2 ∧ ((∀ b ∈ allBatches (createJobBatches [jA, jB, jC] 2),
      b.length ≤ 2) ∧
    ∀ b ∈ allBatches (createJobBatches [jA, jB, jC] maxJobsPerRequest),
      b.length ≤ maxJobsPerRequest) :=
  ⟨by decide, claim_batch_size_bound [jA, jB, jC] (by decide)⟩

/-- C6: within each (queue, job-set) group the concatenation of the
stored batches lists the job IDs of the matching input jobs in input
order; the queue keys appear in first-encounter order of the input, and
the job-set keys under each queue in first-encounter order of that
queue's jobs. -/
theorem claim_batching_preserves_order (jobs : List Job) (batchSize : Nat) :
    (∀ q s, (getBatches (createJobBatches jobs batchSize) q s).flatten =
      (jobs.filter fun j => j.queue = q ∧ j.jobSet = s).map Job.jobId) ∧
    ((createJobBatches jobs batchSize).map Prod.fst =
      encounterOrder (jobs.map Job.queue)) ∧
    ∀ q, jsKeys (createJobBatches jobs batchSize) q =
      encounterOrder ((jobs.filter fun j => j.queue = q).map Job.jobSet) :=
  ⟨fun q s => createJobBatches_getBatches jobs batchSize q s,
    createJobBatches_map_fst jobs batchSize,
    fun q => createJobBatches_jsKeys jobs batchSize q⟩

/-- C8: the empty job list produces no batches, and the mutation (in
either fake-data mode, with no escaping error) returns the aggregated
response with both lists empty. -/
theorem claim_empty_input {ε : Type} (batchSize : Nat) (reason : String)
    (outcome : Nat → Option ε) (getErrorMessage : ε → String)
    (fakeDataEnabled : Bool) :
    createJobBatches [] batchSize = [] ∧
    runMutation fakeDataEnabled [] reason outcome none getErrorMessage =
      Except.ok { successfulJobIds := [], failedJobIds := [] } := by
  refine ⟨rfl, ?_⟩
  cases fakeDataEnabled <;> rfl

/-- C9: when an error escapes the per-batch handling, the mutation does
not return an aggregated response: it throws the message obtained from
getErrorMessage applied to that error. -/
theorem claim_top_level_error {ε : Type} (jobs : List Job) (reason : String)
    (outcome : Nat → Option ε) (e : ε) (getErrorMessage : ε → String) :
    runMutation false jobs reason outcome (some e) getErrorMessage =
      Except.error (getErrorMessage e) := rfl

/-- C10: with the fakeDataEnabled flag set the mutation ignores the
network entirely (the result does not depend on the request outcomes or
on any injected error) and returns every input job ID as successful, in
input order, with no failed IDs. -/
theorem claim_fake_data_mode {ε : Type} (jobs : List Job) (reason : String)
    (outcome : Nat → Option ε) (topError : Option ε)
    (getErrorMessage : ε → String) :
    runMutation true jobs reason outcome topError getErrorMessage =
      Except.ok { successfulJobIds := jobs.map Job.jobId, failedJobIds := [] } :=
  rfl
/-- C1: in the normal path (fake data disabled, no escaping error) the
mutation returns the aggregated response; the concatenation of its
successful IDs and failed IDs is a permutation of the submitted job IDs,
and when the submitted IDs are distinct every submitted ID lies in
exactly one of the two lists. -/
theorem claim_response_partitions {ε : Type} (jobs : List Job)
    (reason : String) (outcome : Nat → Option ε)
    (getErrorMessage : ε → String) :
    runMutation false jobs reason outcome none getErrorMessage =
      Except.ok (mutationResponse jobs reason outcome getErrorMessage) ∧
    ((mutationResponse jobs reason outcome getErrorMessage).successfulJobIds ++
      (mutationResponse jobs reason outcome getErrorMessage).failedJobIds.map
        FailedJob.jobId).Perm (jobs.map Job.jobId) ∧
    ((jobs.map Job.jobId).Nodup → ∀ id ∈ jobs.map Job.jobId,
      (id ∈ (mutationResponse jobs reason outcome
          getErrorMessage).successfulJobIds ∧
        id ∉ (mutationResponse jobs reason outcome
          getErrorMessage).failedJobIds.map FailedJob.jobId) ∨
      (id ∉ (mutationResponse jobs reason outcome
          getErrorMessage).successfulJobIds ∧
        id ∈ (mutationResponse jobs reason outcome
          getErrorMessage).failedJobIds.map FailedJob.jobId)) := by
  have hperm :
      ((mutationResponse jobs reason outcome getErrorMessage).successfulJobIds
        ++ (mutationResponse jobs reason outcome
          getErrorMessage).failedJobIds.map FailedJob.jobId).Perm
        (jobs.map Job.jobId) := by
    have h1 := processCalls_perm getErrorMessage (buildApiCalls jobs reason)
      outcome
    unfold buildApiCalls at h1
    rw [callsOfMap_flatMap_jobIds] at h1
    exact h1.trans (createJobBatches_flattenIds_perm jobs maxJobsPerRequest)
  refine ⟨rfl, hperm, ?_⟩
  intro hnd id hid
  have h2 : List.count id (jobs.map Job.jobId) = 1 :=
    List.count_eq_one_of_mem hnd hid
  have h3 :
      List.count id (mutationResponse jobs reason outcome
          getErrorMessage).successfulJobIds +
        List.count id ((mutationResponse jobs reason outcome
          getErrorMessage).failedJobIds.map FailedJob.jobId) = 1 := by
    rw [← List.count_append, hperm.count_eq]
    exact h2
  by_cases hs :
      id ∈ (mutationResponse jobs reason outcome
        getErrorMessage).successfulJobIds
  · left
    refine ⟨hs, ?_⟩
    have hpos : 0 < List.count id (mutationResponse jobs reason outcome
        getErrorMessage).successfulJobIds := List.count_pos_iff.mpr hs
    exact List.count_eq_zero.mp (by omega)
  · right
    have hs0 : List.count id (mutationResponse jobs reason outcome
        getErrorMessage).successfulJobIds = 0 := List.count_eq_zero.mpr hs
    exact ⟨hs, List.count_pos_iff.mp (by omega)⟩

/-- C4: in the normal path, every job ID of a batch whose request failed
is reported in failedJobIds with the stringified error of that batch;
only job IDs of failed batches appear there; and a failure of one batch
does not stop the other batches from being processed and reported. -/
theorem claim_failed_batches {ε : Type} (jobs : List Job) (reason : String)
    (outcome : Nat → Option ε) (getErrorMessage : ε → String) :
    runMutation false jobs reason outcome none getErrorMessage =
      Except.ok (mutationResponse jobs reason outcome getErrorMessage) ∧
    (∀ (i : Nat) (c : ApiCall) (e : ε),
      (buildApiCalls jobs reason)[i]? = some c → outcome i = some e →
      ∀ id ∈ c.jobIds,
        ({ jobId := id, errorReason := getErrorMessage e } : FailedJob) ∈
          (mutationResponse jobs reason outcome
            getErrorMessage).failedJobIds) ∧
    (∀ p ∈ (mutationResponse jobs reason outcome
        getErrorMessage).failedJobIds,
      ∃ i c e, (buildApiCalls jobs reason)[i]? = some c ∧
        outcome i = some e ∧ p.jobId ∈ c.jobIds ∧
        p.errorReason = getErrorMessage e) ∧
    ∀ (i : Nat) (c : ApiCall),
      (buildApiCalls jobs reason)[i]? = some c → outcome i = none →
      ∀ id ∈ c.jobIds,
        id ∈ (mutationResponse jobs reason outcome
          getErrorMessage).successfulJobIds :=
  ⟨rfl,
    fun i c e hc ho id hid =>
      processCalls_failed_mem getErrorMessage (buildApiCalls jobs reason)
        outcome i c e hc ho id hid,
    fun p hp =>
      processCalls_failed_src getErrorMessage (buildApiCalls jobs reason)
        outcome p hp,
    fun i c hc ho id hid =>
      processCalls_success_mem getErrorMessage (buildApiCalls jobs reason)
        outcome i c hc ho id hid⟩

/-- C5: when every batch request succeeds, the mutation returns the
aggregated response whose failed list is empty, and (for distinct input
IDs) every submitted job ID appears exactly once among the successful
IDs. -/
theorem claim_all_success {ε : Type} (jobs : List Job) (reason : String)
    (getErrorMessage : ε → String) (hnd : (jobs.map Job.jobId).Nodup) :
    runMutation false jobs reason (fun _ => (none : Option ε)) none
        getErrorMessage =
      Except.ok (mutationResponse jobs reason (fun _ => none)
        getErrorMessage) ∧
    (mutationResponse jobs reason (fun _ => (none : Option ε))
      getErrorMessage).failedJobIds = [] ∧
    ∀ id ∈ jobs.map Job.jobId,
      List.count id (mutationResponse jobs reason (fun _ => (none : Option ε))
        getErrorMessage).successfulJobIds = 1 := by
  have heq := processCalls_all_none getErrorMessage (buildApiCalls jobs reason)
  have hperm :
      ((buildApiCalls jobs reason).flatMap fun c => c.jobIds).Perm
        (jobs.map Job.jobId) := by
    unfold buildApiCalls
    rw [callsOfMap_flatMap_jobIds]
    exact createJobBatches_flattenIds_perm jobs maxJobsPerRequest
  refine ⟨rfl, ?_, ?_⟩
  · unfold mutationResponse
    rw [heq]
  · intro id hid
    unfold mutationResponse
    rw [heq]
    exact (hperm.count_eq id).trans (List.count_eq_one_of_mem hnd hid)

/-- C5 witness: two distinct jobs in one queue and job set, every request
succeeding. -/
theorem claim_all_success_witness :
    (([jA, jB] : List Job).map Job.jobId).Nodup ∧
    (runMutation false [jA, jB] "r" (fun _ => (none : Option String)) none
        (fun e => e) =
      Except.ok (mutationResponse [jA, jB] "r" (fun _ => none)
        (fun e => e)) ∧
    (mutationResponse [jA, jB] "r" (fun _ => (none : Option String))
      (fun e => e)).failedJobIds = [] ∧
    ∀ x ∈ [jA, jB].map Job.jobId,
      List.count x (mutationResponse [jA, jB] "r"
        (fun _ => (none : Option String)) (fun e => e)).successfulJobIds = 1) :=
  ⟨by decide, claim_all_success [jA, jB] "r" (fun e => e) (by decide)⟩

/-- C7: every request issued by the mutation carries exactly its batch's
job IDs, the shared reason, and a queue and job set such that every job
ID of the batch belongs to an input job with that queue and that job
set. -/
theorem claim_requests_scoped (jobs : List Job) (reason : String) :
    ∀ call ∈ buildApiCalls jobs reason,
      call.body.reason = reason ∧ call.body.jobIds = call.jobIds ∧
      ∀ id ∈ call.jobIds, ∃ j ∈ jobs,
        j.jobId = id ∧ j.queue = call.body.queue ∧
        j.jobSet = call.body.jobSetId := by
  intro call hcall
  unfold buildApiCalls callsOfMap at hcall
  simp only [List.mem_flatMap, List.mem_map] at hcall
  obtain ⟨⟨q, sm⟩, hp, ⟨s, bsl⟩, hq, b, hb, rfl⟩ := hcall
  refine ⟨rfl, rfl, ?_⟩
  intro id hid
  have hndq : ((createJobBatches jobs maxJobsPerRequest).map Prod.fst).Nodup := by
    rw [createJobBatches_map_fst]
    exact nodup_encounterOrder _
  have houter : lookupAssoc q (createJobBatches jobs maxJobsPerRequest) =
      some sm := lookupAssoc_eq_some_of_mem hndq hp
  have hnds : (sm.map Prod.fst).Nodup := by
    have hjs : jsKeys (createJobBatches jobs maxJobsPerRequest) q =
        sm.map Prod.fst := by
      unfold jsKeys
      rw [houter]
      rfl
    rw [← hjs, createJobBatches_jsKeys]
    exact nodup_encounterOrder _
  have hinner : lookupAssoc s sm = some bsl :=
    lookupAssoc_eq_some_of_mem hnds hq
  have hidf : id ∈ (getBatches (createJobBatches jobs maxJobsPerRequest)
      q s).flatten := by
    unfold getBatches
    rw [houter]
    simp only [Option.getD_some]
    rw [hinner]
    simp only [Option.getD_some]
    exact List.mem_flatten.mpr ⟨b, hb, hid⟩
  rw [createJobBatches_getBatches] at hidf
  obtain ⟨j, hjmem, hjid⟩ := List.mem_map.mp hidf
  have hjf := List.mem_filter.mp hjmem
  have hcond : j.queue = q ∧ j.jobSet = s := by
    simpa using hjf.2
  exact ⟨j, hjf.1, hjid, hcond.1, hcond.2⟩

/-- The single API call issued for the job list `[jA]` with reason
`"why"`, used by the C7 witness. -/
def callA : ApiCall :=
  ⟨⟨["a"], "queueA", "setA", "why"⟩, ["a"]⟩

/-- C7 witness: the single request issued for one job carries that job's
batch, queue, job set and the shared reason. -/
theorem claim_requests_scoped_witness :
    callA ∈ buildApiCalls [jA] "why" ∧
    (callA.body.reason = "why" ∧ callA.body.jobIds = callA.jobIds ∧
      ∀ id ∈ callA.jobIds, ∃ j ∈ [jA],
        j.jobId = id ∧ j.queue = callA.body.queue ∧
        j.jobSet = callA.body.jobSetId) := by
  have hmem : callA ∈ buildApiCalls [jA] "why" := by
    rw [show buildApiCalls [jA] "why" = [callA] from rfl]
    exact List.mem_singleton.mpr rfl
  exact ⟨hmem, claim_requests_scoped [jA] "why" callA hmem⟩

end ArmadaPreempt
